import Mathlib

/-!
Verification of the coordinate-mapping core of `helix-core/src/position.rs`:
the `Position` value type with its `traverse` helper, the forward mapping
`coords_at_pos` (character index to visual row/column) and the inverse
mapping `pos_at_coords` (visual row/column to character index).

The text-view, grapheme-segmentation, grapheme-width and line-ending
collaborators live outside the translated source file; they are modelled
from the specification as an abstract segmented document: a list of lines,
each line a list of grapheme clusters followed by a line terminator, where
a cluster is known by its character count and its visual width.
-/

namespace HelixPosition

/-- Represents a single point in a text buffer.  Zero indexed.
Translated from `Position` in `position.rs`. -/
structure Position where
  row : Nat
  col : Nat
  deriving DecidableEq, Repr

/-- Modelled from the spec: line-ending classification, consumed as
"is this character a line terminator"; the traversal rules of section 4.1
name the terminator characters, newline and carriage return. -/
def char_is_line_ending (ch : Char) : Bool :=
  ch == '\n' || ch == '\r'

/-- The scanning loop of `Position::traverse`, translated from the source:
a line-ending character that is not a carriage return immediately followed
by a newline advances the row and resets the column; any other character
advances the column. -/
def traverseAux : Nat → Nat → List Char → Position
  | row, col, [] => ⟨row, col⟩
  | row, col, ch :: rest =>
    if char_is_line_ending ch && !(ch == '\r' && rest.head? == some '\n') then
      traverseAux (row + 1) 0 rest
    else
      traverseAux row (col + 1) rest

/-- Translated from `Position::traverse` in `position.rs`. -/
def Position.traverse (p : Position) (text : List Char) : Position :=
  traverseAux p.row p.col text

/-- A grapheme cluster as the segmentation interface of the spec exposes
it: a maximal span of adjacent characters rendering as one unit, known by
its character count `len` and its visual width `width`. -/
structure Cluster where
  len : Nat
  width : Nat
  deriving DecidableEq, Repr

/-- Sum of the character counts of a list of clusters. -/
def clen : List Cluster → Nat
  | [] => 0
  | c :: cs => c.len + clen cs

/-- Sum of the visual widths of a list of clusters. -/
def cwidth : List Cluster → Nat
  | [] => 0
  | c :: cs => c.width + cwidth cs

/-- A line terminator: newline, lone carriage return, or the two-character
carriage-return/newline sequence. -/
inductive Term where
  | LF : Term
  | CR : Term
  | CRLF : Term
  deriving DecidableEq, Repr

/-- Character count of a line terminator. -/
def Term.len : Term → Nat
  | .LF => 1
  | .CR => 1
  | .CRLF => 2

/-- Modelled from the spec: a line terminator forms a single grapheme
cluster (section 3 names the carriage-return/newline pair as one cluster)
and advances the visual column by one position when consumed by the
inverse mapping (section 8, the scenario counting the pair as one position
advance from its start). -/
def Term.cluster (t : Term) : Cluster :=
  ⟨t.len, 1⟩

/-- Modelled from the spec: the immutable text view, already segmented
into grapheme clusters.  `body` holds the lines that end in a terminator,
in order; `last` is the final line, which has no terminator.  This matches
the line convention of the text-view interface: the number of lines is one
more than the number of terminators, a text ending in a terminator having
a final empty line. -/
structure Doc where
  body : List (List Cluster × Term)
  last : List Cluster
  deriving DecidableEq, Repr

/-- The lines of a document, each as its content clusters paired with its
optional terminator. -/
def Doc.lineList (d : Doc) : List (List Cluster × Option Term) :=
  (d.body.map fun l => (l.1, some l.2)) ++ [(d.last, none)]

/-- Character count of an optional terminator. -/
def termLenO : Option Term → Nat
  | none => 0
  | some t => t.len

/-- Character count of a full line: its content plus its terminator. -/
def lineLen (l : List Cluster × Option Term) : Nat :=
  clen l.1 + termLenO l.2

/-- The clusters of the terminated lines, flattened in order, each line
contributing its content clusters followed by its terminator cluster. -/
def bodyClusters : List (List Cluster × Term) → List Cluster
  | [] => []
  | l :: rest => (l.1 ++ [l.2.cluster]) ++ bodyClusters rest

/-- The grapheme clusters of the whole document, in order. -/
def Doc.clusters (d : Doc) : List Cluster :=
  bodyClusters d.body ++ d.last

/-- Total number of lines (terminator count plus one). -/
def Doc.lenLines (d : Doc) : Nat :=
  d.body.length + 1

/-- Total character count of the document. -/
def Doc.len (d : Doc) : Nat :=
  clen d.clusters

/-- Starting character index of a line: the summed lengths of the lines
before it (a row index past the last line yields the total length). -/
def lineStartAux : List (List Cluster × Option Term) → Nat → Nat
  | _, 0 => 0
  | [], _ + 1 => 0
  | l :: ls, r + 1 => lineLen l + lineStartAux ls r

/-- Starting character index of line `row`. -/
def Doc.lineStart (d : Doc) (row : Nat) : Nat :=
  lineStartAux d.lineList row

/-- Modelled from the spec: the text-view operation "line index to starting
char index".  An out-of-range row is a precondition violation and faults
(`none`); the one-past-the-end row is accepted and yields the total length,
which the inverse mapping's clamp of `row + 1` relies on. -/
def Doc.lineToChar (d : Doc) (row : Nat) : Option Nat :=
  if row ≤ d.lenLines then some (d.lineStart row) else none

/-- Locates the line containing a character index: an index inside a
line's terminator belongs to that line, and any index within the last
line's span belongs to the last line. -/
def charToLineAux : List (List Cluster × Option Term) → Nat → Nat
  | [], _ => 0
  | [_], _ => 0
  | l :: l2 :: ls, pos =>
    if pos < lineLen l then 0 else charToLineAux (l2 :: ls) (pos - lineLen l) + 1

/-- Modelled from the spec: the text-view operation "char index to line
index".  The end-of-text index belongs to the last line; an index beyond
the text length is a precondition violation and faults (`none`). -/
def Doc.charToLine (d : Doc) (pos : Nat) : Option Nat :=
  if pos ≤ d.len then some (charToLineAux d.lineList pos) else none

/-- Rounds a character index down to the greatest cluster boundary not
exceeding it, scanning the clusters in order. -/
def snapPrevAux : List Cluster → Nat → Nat
  | [], _ => 0
  | c :: cs, pos => if pos < c.len then 0 else c.len + snapPrevAux cs (pos - c.len)

/-- Modelled from the spec (section 9): grapheme-boundary snapping, "round
an index down to the nearest preceding cluster start". -/
def ensure_grapheme_boundary_prev (d : Doc) (pos : Nat) : Nat :=
  snapPrevAux d.clusters pos

/-- Drops the clusters of the first `n` characters (exercised only at
cluster boundaries; a cut inside a cluster keeps the remainder's width). -/
def dropC : List Cluster → Nat → List Cluster
  | cs, 0 => cs
  | [], _ + 1 => []
  | c :: cs, n + 1 =>
    if c.len ≤ n + 1 then dropC cs (n + 1 - c.len)
    else ⟨c.len - (n + 1), c.width⟩ :: cs

/-- Takes the clusters of the first `n` characters (exercised only at
cluster boundaries; a cut inside a cluster keeps the fragment's width). -/
def takeC : List Cluster → Nat → List Cluster
  | _, 0 => []
  | [], _ + 1 => []
  | c :: cs, n + 1 =>
    if c.len ≤ n + 1 then c :: takeC cs (n + 1 - c.len)
    else [⟨n + 1, c.width⟩]

/-- Modelled from the spec: producing the ordered sequence of grapheme
clusters within the character span `[a, b)` of the document. -/
def sliceClusters (cs : List Cluster) (a b : Nat) : List Cluster :=
  takeC (dropC cs a) (b - a)

/-- Content clusters of line `row`. -/
def contentAt (d : Doc) (row : Nat) : List Cluster :=
  (d.lineList.getD row ([], none)).1

/-- Terminator of line `row`, as a (possibly empty) cluster list. -/
def termAt (d : Doc) (row : Nat) : List Cluster :=
  match (d.lineList.getD row ([], none)).2 with
  | none => []
  | some t => [t.cluster]

/-- Modelled from the spec (section 4.3, block-cursor branch): the index
of a line's terminating character, the position just past its content;
faults for a row with no such line. -/
def line_end_char_index (d : Doc) (row : Nat) : Option Nat :=
  if row < d.lenLines then some (d.lineStart row + clen (contentAt d row)) else none

/-- Translated from `coords_at_pos` in `position.rs`: locate the line of
`pos`, snap `pos` back to a grapheme boundary, and sum the visual widths
of the clusters between the line start and the snapped index. -/
def coords_at_pos (d : Doc) (pos : Nat) : Option Position :=
  (d.charToLine pos).bind fun line =>
  (d.lineToChar line).bind fun line_start =>
  some ⟨line, cwidth (sliceClusters d.clusters line_start (ensure_grapheme_boundary_prev d pos))⟩

/-- The line-end computation of `pos_at_coords`: the terminator's index in
block-cursor mode, otherwise the start of the next line clamped to the
line count.  Translated from the source's conditional. -/
def pos_line_end (d : Doc) (row : Nat) (is_1_width : Bool) : Option Nat :=
  if is_1_width then line_end_char_index d row
  else d.lineToChar (min (row + 1) d.lenLines)

/-- The cluster walk of `pos_at_coords`, translated from the source loop:
walk the clusters accumulating the running width `prev_col` and the running
character offset; stop before the first cluster whose accumulated width
would exceed the target column. -/
def posWalk : List Cluster → Nat → Nat → Nat → Nat
  | [], _, _, off => off
  | g :: gs, col, prev_col, off =>
    let next_col := prev_col + g.width
    if col < next_col then off
    else posWalk gs col next_col (off + g.len)

/-- Translated from `pos_at_coords` in `position.rs`. -/
def pos_at_coords (d : Doc) (coords : Position) (is_1_width : Bool) : Option Nat :=
  (d.lineToChar coords.row).bind fun line_start =>
  (pos_line_end d coords.row is_1_width).bind fun line_end =>
  some (line_start + posWalk (sliceClusters d.clusters line_start line_end) coords.col 0 0)

/-- Modelled from the spec: a well-formed cluster spans at least one
character and occupies one or two visual columns (section 8: a combining
cluster has width 1, or 2 if its base is wide; a displayed cluster always
occupies at least one column, which the round-trip law of section 4.3
presupposes). -/
def Cluster.WF (c : Cluster) : Prop :=
  0 < c.len ∧ 0 < c.width ∧ c.width ≤ 2

/-- A well-formed document: every cluster is well-formed. -/
def Doc.WF (d : Doc) : Prop :=
  ∀ c ∈ d.clusters, c.WF

instance (c : Cluster) : Decidable c.WF := by
  unfold Cluster.WF; infer_instance

instance (d : Doc) : Decidable d.WF := by
  unfold Doc.WF; exact List.decidableBAll _ _

/-- A character index lies on a grapheme-cluster boundary precisely when
backward snapping leaves it unchanged. -/
def IsBoundary (d : Doc) (i : Nat) : Prop :=
  ensure_grapheme_boundary_prev d i = i

instance (d : Doc) (i : Nat) : Decidable (IsBoundary d i) := by
  unfold IsBoundary; infer_instance

/-- Modelled from the spec, for the refinement claim on the forward
mapping: the visual column of an index within one line, summing the widths
of the content clusters wholly before the index (an index inside a cluster
contributes nothing for that cluster, snapping backward). -/
def colInLine : List Cluster → Nat → Nat
  | [], _ => 0
  | c :: cs, n => if c.len ≤ n then c.width + colInLine cs (n - c.len) else 0

/-- Modelled from the spec, for the refinement claim on the forward
mapping: walk the lines; an index within the current line (its terminator
included) maps to row zero and its in-line column, otherwise recurse on
the following lines with the index shifted by the line's length. -/
def coordsSpecAux : List (List Cluster × Option Term) → Nat → Position
  | [], _ => ⟨0, 0⟩
  | [l], pos => ⟨0, colInLine l.1 pos⟩
  | l :: l2 :: ls, pos =>
    if pos < lineLen l then ⟨0, colInLine l.1 pos⟩
    else
      let p := coordsSpecAux (l2 :: ls) (pos - lineLen l)
      ⟨p.row + 1, p.col⟩

/-- The spec-side forward mapping (section 4.2), stated independently of
the translated implementation. -/
def coordsSpec (d : Doc) (pos : Nat) : Position :=
  coordsSpecAux d.lineList pos

/-- Modelled from the spec, for the refinement claim on `traverse`
(section 4.1): scan character by character; a terminator sequence
increments the row once and resets the column — the leading carriage
return of a carriage-return/newline pair defers to the newline completing
the sequence — and every other character increments the column. -/
def traverseSpec : Position → List Char → Position
  | p, [] => p
  | p, c :: rest =>
    traverseSpec
      (if c = '\n' ∨ (c = '\r' ∧ rest.head? ≠ some '\n') then ⟨p.row + 1, 0⟩
       else if c = '\r' then p
       else ⟨p.row, p.col + 1⟩)
      rest

/-- Mirrors the rope of the source test `test_coords_at_pos` and
`test_pos_at_coords`: a five-character one-width line, a newline, then a
five-character one-width final line. -/
def exHello : Doc :=
  ⟨[([⟨1, 1⟩, ⟨1, 1⟩, ⟨1, 1⟩, ⟨1, 1⟩, ⟨1, 1⟩], Term.LF)],
   [⟨1, 1⟩, ⟨1, 1⟩, ⟨1, 1⟩, ⟨1, 1⟩, ⟨1, 1⟩]⟩

/-- Mirrors the wide-character rope of the source tests: five double-width
single-character clusters, a newline, then an empty final line. -/
def exWide : Doc :=
  ⟨[([⟨1, 2⟩, ⟨1, 2⟩, ⟨1, 2⟩, ⟨1, 2⟩, ⟨1, 2⟩], Term.LF)], []⟩

/-- Mirrors the combining-cluster rope of the source tests: clusters of
two, two and three characters, each of width one, a carriage-return/newline
terminator, then an empty final line. -/
def exCombining : Doc :=
  ⟨[([⟨2, 1⟩, ⟨2, 1⟩, ⟨3, 1⟩], Term.CRLF)], []⟩

/-- Mirrors the Devanagari rope of the source tests, terminated: clusters
of two, one and two characters of widths two, one and two. -/
def exDeva : Doc :=
  ⟨[([⟨2, 2⟩, ⟨1, 1⟩, ⟨2, 2⟩], Term.LF)], []⟩

/-- Mirrors the unterminated Devanagari rope of the source tests. -/
def exDevaNoEol : Doc :=
  ⟨[], [⟨2, 2⟩, ⟨1, 1⟩, ⟨2, 2⟩]⟩

/-- A one-character, one-line document. -/
def exSingle : Doc :=
  ⟨[], [⟨1, 1⟩]⟩

/-! ### Basic lemmas about cluster lists -/

@[simp] theorem clen_nil : clen [] = 0 := rfl

@[simp] theorem clen_cons (c : Cluster) (cs : List Cluster) :
    clen (c :: cs) = c.len + clen cs := rfl

@[simp] theorem clen_append (xs ys : List Cluster) :
    clen (xs ++ ys) = clen xs + clen ys := by
  induction xs with
  | nil => simp
  | cons c cs ih => simp [ih]; omega

@[simp] theorem cwidth_nil : cwidth [] = 0 := rfl

@[simp] theorem cwidth_cons (c : Cluster) (cs : List Cluster) :
    cwidth (c :: cs) = c.width + cwidth cs := rfl

@[simp] theorem cwidth_append (xs ys : List Cluster) :
    cwidth (xs ++ ys) = cwidth xs + cwidth ys := by
  induction xs with
  | nil => simp
  | cons c cs ih => simp [ih]; omega

theorem term_len_pos (t : Term) : 0 < t.len := by
  cases t <;> decide

@[simp] theorem term_cluster_len (t : Term) : t.cluster.len = t.len := rfl

@[simp] theorem term_cluster_width (t : Term) : t.cluster.width = 1 := rfl

/-! ### Document structure lemmas -/

theorem lineList_nil (last : List Cluster) :
    Doc.lineList ⟨[], last⟩ = [(last, none)] := rfl

theorem lineList_cons (hd : List Cluster × Term) (rest : List (List Cluster × Term))
    (last : List Cluster) :
    Doc.lineList ⟨hd :: rest, last⟩ = (hd.1, some hd.2) :: Doc.lineList ⟨rest, last⟩ := rfl

@[simp] theorem lineList_length (d : Doc) : d.lineList.length = d.lenLines := by
  simp [Doc.lineList, Doc.lenLines]

theorem lineList_ne_nil (d : Doc) : d.lineList ≠ [] := by
  simp [Doc.lineList]

theorem clusters_nil (last : List Cluster) : Doc.clusters ⟨[], last⟩ = last := by
  simp [Doc.clusters, bodyClusters]

theorem clusters_cons (hd : List Cluster × Term) (rest : List (List Cluster × Term))
    (last : List Cluster) :
    Doc.clusters ⟨hd :: rest, last⟩ = (hd.1 ++ [hd.2.cluster]) ++ Doc.clusters ⟨rest, last⟩ := by
  simp [Doc.clusters, bodyClusters]

theorem clen_line_clusters (hd : List Cluster × Term) :
    clen (hd.1 ++ [hd.2.cluster]) = lineLen (hd.1, some hd.2) := by
  simp [lineLen, termLenO]

theorem len_nil (last : List Cluster) : Doc.len ⟨[], last⟩ = clen last := by
  simp [Doc.len, clusters_nil]

theorem len_cons (hd : List Cluster × Term) (rest : List (List Cluster × Term))
    (last : List Cluster) :
    Doc.len ⟨hd :: rest, last⟩ = lineLen (hd.1, some hd.2) + Doc.len ⟨rest, last⟩ := by
  simp [Doc.len, clusters_cons, lineLen, termLenO]
  omega

@[simp] theorem lenLines_cons (hd : List Cluster × Term) (rest : List (List Cluster × Term))
    (last : List Cluster) :
    Doc.lenLines ⟨hd :: rest, last⟩ = Doc.lenLines ⟨rest, last⟩ + 1 := by
  simp [Doc.lenLines]

@[simp] theorem lineStart_zero (d : Doc) : d.lineStart 0 = 0 := by
  simp [Doc.lineStart, lineStartAux]

theorem lineStart_cons_succ (hd : List Cluster × Term) (rest : List (List Cluster × Term))
    (last : List Cluster) (r : Nat) :
    Doc.lineStart ⟨hd :: rest, last⟩ (r + 1)
      = lineLen (hd.1, some hd.2) + Doc.lineStart ⟨rest, last⟩ r := by
  simp [Doc.lineStart, Doc.lineList, lineStartAux]

theorem lineStart_nil_one (last : List Cluster) :
    Doc.lineStart ⟨[], last⟩ 1 = clen last := by
  simp [Doc.lineStart, lineList_nil, lineStartAux, lineLen, termLenO]

theorem lineStart_top (d : Doc) : d.lineStart d.lenLines = d.len := by
  obtain ⟨body, last⟩ := d
  induction body with
  | nil =>
    show Doc.lineStart ⟨[], last⟩ 1 = Doc.len ⟨[], last⟩
    rw [lineStart_nil_one, len_nil]
  | cons hd rest ih =>
    show Doc.lineStart ⟨hd :: rest, last⟩ (Doc.lenLines ⟨rest, last⟩ + 1) = _
    rw [lineStart_cons_succ, ih, len_cons]

theorem WF_tail (hd : List Cluster × Term) (rest : List (List Cluster × Term))
    (last : List Cluster) (h : Doc.WF ⟨hd :: rest, last⟩) : Doc.WF ⟨rest, last⟩ := by
  intro c hc
  exact h c (by rw [clusters_cons]; exact List.mem_append_right _ hc)

theorem WF_head (hd : List Cluster × Term) (rest : List (List Cluster × Term))
    (last : List Cluster) (h : Doc.WF ⟨hd :: rest, last⟩) :
    ∀ c ∈ hd.1 ++ [hd.2.cluster], c.WF := by
  intro c hc
  exact h c (by rw [clusters_cons]; exact List.mem_append_left _ hc)

/-! ### Snapping lemmas -/

theorem snapAux_zero (cs : List Cluster) : snapPrevAux cs 0 = 0 := by
  induction cs with
  | nil => rfl
  | cons c cs ih =>
    simp only [snapPrevAux]
    split
    · rfl
    · next h =>
      have hc : c.len = 0 := by omega
      simp [hc, ih]

theorem snapAux_le (cs : List Cluster) (m : Nat) : snapPrevAux cs m ≤ m := by
  induction cs generalizing m with
  | nil => simp [snapPrevAux]
  | cons c cs ih =>
    simp only [snapPrevAux]
    split
    · omega
    · have := ih (m - c.len)
      omega

theorem snapAux_le_clen (cs : List Cluster) (m : Nat) : snapPrevAux cs m ≤ clen cs := by
  induction cs generalizing m with
  | nil => simp [snapPrevAux]
  | cons c cs ih =>
    simp only [snapPrevAux, clen_cons]
    split
    · omega
    · have := ih (m - c.len)
      omega

theorem snapAux_split (xs ys : List Cluster) (m : Nat) :
    snapPrevAux (xs ++ ys) (clen xs + m) = clen xs + snapPrevAux ys m := by
  induction xs generalizing m with
  | nil => simp
  | cons c xs ih =>
    simp only [List.cons_append, snapPrevAux, clen_cons, List.append_eq]
    rw [if_neg (by omega)]
    have h1 : c.len + clen xs + m - c.len = clen xs + m := by omega
    rw [h1, ih]
    omega

theorem snap_decomp (cs : List Cluster) (m : Nat) :
    ∃ xs ys, cs = xs ++ ys ∧ snapPrevAux cs m = clen xs := by
  induction cs generalizing m with
  | nil => exact ⟨[], [], by simp, by simp [snapPrevAux]⟩
  | cons c cs ih =>
    by_cases hlt : m < c.len
    · exact ⟨[], c :: cs, by simp, by simp [snapPrevAux, hlt]⟩
    · obtain ⟨xs, ys, hcs, hs⟩ := ih (m - c.len)
      refine ⟨c :: xs, ys, by simp [hcs], ?_⟩
      simp [snapPrevAux, hlt, hs]

theorem boundary_intro (xs ys : List Cluster) :
    snapPrevAux (xs ++ ys) (clen xs) = clen xs := by
  have := snapAux_split xs ys 0
  simpa [snapAux_zero] using this

theorem snapAux_idem (cs : List Cluster) (m : Nat) :
    snapPrevAux cs (snapPrevAux cs m) = snapPrevAux cs m := by
  obtain ⟨xs, ys, hcs, hs⟩ := snap_decomp cs m
  rw [hs, hcs, boundary_intro]

theorem boundary_elim (cs : List Cluster) (i : Nat) (h : snapPrevAux cs i = i) :
    ∃ xs ys, cs = xs ++ ys ∧ clen xs = i := by
  obtain ⟨xs, ys, hcs, hs⟩ := snap_decomp cs i
  exact ⟨xs, ys, hcs, by omega⟩

/-! ### Slicing lemmas -/

@[simp] theorem takeC_zero (cs : List Cluster) : takeC cs 0 = [] := by
  cases cs <;> rfl

@[simp] theorem dropC_zero (cs : List Cluster) : dropC cs 0 = cs := by
  cases cs <;> rfl

theorem takeC_exact (xs ys : List Cluster) (h : ∀ c ∈ xs, 0 < c.len) :
    takeC (xs ++ ys) (clen xs) = xs := by
  induction xs with
  | nil => simp
  | cons c xs ih =>
    have hc : 0 < c.len := h c (by simp)
    have hx : ∀ c2 ∈ xs, 0 < c2.len := fun c2 hc2 => h c2 (by simp [hc2])
    obtain ⟨k, hk⟩ : ∃ k, c.len + clen xs = k + 1 := ⟨c.len + clen xs - 1, by omega⟩
    simp only [List.cons_append, clen_cons, hk, takeC]
    rw [if_pos (by omega)]
    have h2 : k + 1 - c.len = clen xs := by omega
    rw [h2]
    exact congrArg (c :: ·) (ih hx)

theorem takeC_all (cs : List Cluster) (h : ∀ c ∈ cs, 0 < c.len) :
    takeC cs (clen cs) = cs := by
  have := takeC_exact cs [] h
  simpa using this

theorem dropC_split (xs ys : List Cluster) (a : Nat) (h : ∀ c ∈ xs, 0 < c.len) :
    dropC (xs ++ ys) (clen xs + a) = dropC ys a := by
  induction xs with
  | nil => simp
  | cons c xs ih =>
    have hc : 0 < c.len := h c (by simp)
    have hx : ∀ c2 ∈ xs, 0 < c2.len := fun c2 hc2 => h c2 (by simp [hc2])
    obtain ⟨k, hk⟩ : ∃ k, c.len + (clen xs + a) = k + 1 := ⟨c.len + clen xs + a - 1, by omega⟩
    simp only [List.cons_append, clen_cons, Nat.add_assoc, hk]
    show dropC (c :: (xs ++ ys)) (k + 1) = dropC ys a
    simp only [dropC]
    rw [if_pos (by omega)]
    have h2 : k + 1 - c.len = clen xs + a := by omega
    rw [h2]
    exact ih hx

/-! ### Lemmas about the inverse-mapping cluster walk -/

theorem walk_ge (cs : List Cluster) (col prev off : Nat) :
    off ≤ posWalk cs col prev off := by
  induction cs generalizing prev off with
  | nil => simp [posWalk]
  | cons c cs ih =>
    simp only [posWalk]
    split
    · omega
    · have := ih (prev + c.width) (off + c.len)
      omega

theorem walk_le (cs : List Cluster) (col prev off : Nat) :
    posWalk cs col prev off ≤ off + clen cs := by
  induction cs generalizing prev off with
  | nil => simp [posWalk]
  | cons c cs ih =>
    simp only [posWalk, clen_cons]
    split
    · omega
    · have := ih (prev + c.width) (off + c.len)
      omega

theorem walk_mono_col (cs : List Cluster) (col1 col2 prev off : Nat) (h : col1 ≤ col2) :
    posWalk cs col1 prev off ≤ posWalk cs col2 prev off := by
  induction cs generalizing prev off with
  | nil => simp [posWalk]
  | cons c cs ih =>
    simp only [posWalk]
    by_cases h1 : col1 < prev + c.width
    · rw [if_pos h1]
      split
      · omega
      · have := walk_ge cs col2 (prev + c.width) (off + c.len)
        omega
    · rw [if_neg h1, if_neg (by omega)]
      exact ih (prev + c.width) (off + c.len)

theorem walk_app_le (xs ys : List Cluster) (col prev off : Nat) :
    posWalk xs col prev off ≤ posWalk (xs ++ ys) col prev off := by
  induction xs generalizing prev off with
  | nil => simpa [posWalk] using walk_ge ys col prev off
  | cons c xs ih =>
    simp only [List.cons_append, posWalk]
    split
    · omega
    · exact ih (prev + c.width) (off + c.len)

theorem walk_consume (xs ys : List Cluster) (col prev off : Nat)
    (h : prev + cwidth xs ≤ col) :
    posWalk (xs ++ ys) col prev off = posWalk ys col (prev + cwidth xs) (off + clen xs) := by
  induction xs generalizing prev off with
  | nil => simp
  | cons c xs ih =>
    simp only [List.cons_append, posWalk, cwidth_cons, clen_cons, List.append_eq] at h ⊢
    rw [if_neg (by omega)]
    rw [ih (prev + c.width) (off + c.len) (by omega)]
    have h1 : prev + c.width + cwidth xs = prev + (c.width + cwidth xs) := by omega
    have h2 : off + c.len + clen xs = off + (c.len + clen xs) := by omega
    rw [h1, h2]

theorem walk_stop (c : Cluster) (cs : List Cluster) (col prev off : Nat)
    (h : col < prev + c.width) :
    posWalk (c :: cs) col prev off = off := by
  simp [posWalk, h]

theorem walk_all (cs : List Cluster) (col prev off : Nat) (h : prev + cwidth cs ≤ col) :
    posWalk cs col prev off = off + clen cs := by
  have := walk_consume cs [] col prev off h
  simpa [posWalk] using this

theorem walk_boundary (xs ys : List Cluster) (prev off : Nat)
    (h : ∀ c, ys.head? = some c → 0 < c.width) :
    posWalk (xs ++ ys) (prev + cwidth xs) prev off = off + clen xs := by
  rw [walk_consume xs ys (prev + cwidth xs) prev off (by omega)]
  cases ys with
  | nil => simp [posWalk]
  | cons c cs =>
    have hc : 0 < c.width := h c rfl
    exact walk_stop c cs _ _ _ (by omega)

theorem walk_take (cs : List Cluster) (col prev off : Nat) :
    ∃ k, k ≤ cs.length ∧ posWalk cs col prev off = off + clen (cs.take k) := by
  induction cs generalizing prev off with
  | nil => exact ⟨0, by simp, by simp [posWalk]⟩
  | cons c cs ih =>
    simp only [posWalk]
    split
    · exact ⟨0, by simp, by simp⟩
    · obtain ⟨k, hk, hw⟩ := ih (prev + c.width) (off + c.len)
      refine ⟨k + 1, by simp; omega, ?_⟩
      rw [hw]
      simp [List.take_succ_cons]
      omega

/-! ### Locating lines and unfolding the two mappings -/

theorem charToLineAux_lt (ls : List (List Cluster × Option Term)) (pos : Nat)
    (h : ls ≠ []) : charToLineAux ls pos < ls.length := by
  induction ls generalizing pos with
  | nil => exact absurd rfl h
  | cons l ls ih =>
    cases ls with
    | nil => simp [charToLineAux]
    | cons l2 ls2 =>
      simp only [charToLineAux]
      split
      · simp
      · have := ih (pos - lineLen l) (by simp)
        simp only [List.length_cons] at this ⊢
        omega

theorem charToLine_lt (d : Doc) (pos : Nat) :
    charToLineAux d.lineList pos < d.lenLines := by
  have := charToLineAux_lt d.lineList pos (lineList_ne_nil d)
  simpa using this

theorem coords_at_pos_eq (d : Doc) (pos : Nat) (h : pos ≤ d.len) :
    coords_at_pos d pos
      = some ⟨charToLineAux d.lineList pos,
          cwidth (sliceClusters d.clusters
            (d.lineStart (charToLineAux d.lineList pos))
            (ensure_grapheme_boundary_prev d pos))⟩ := by
  have hrow := charToLine_lt d pos
  simp [coords_at_pos, Doc.charToLine, h, Doc.lineToChar, Nat.le_of_lt hrow]

theorem coords_at_pos_none (d : Doc) (pos : Nat) (h : d.len < pos) :
    coords_at_pos d pos = none := by
  simp [coords_at_pos, Doc.charToLine, Nat.not_le.mpr h]

theorem pos_at_coords_eq (d : Doc) (row col : Nat) (b : Bool) (ls le : Nat)
    (h1 : d.lineToChar row = some ls) (h2 : pos_line_end d row b = some le) :
    pos_at_coords d ⟨row, col⟩ b
      = some (ls + posWalk (sliceClusters d.clusters ls le) col 0 0) := by
  simp [pos_at_coords, h1, h2]

theorem pos_at_coords_inv (d : Doc) (row col : Nat) (b : Bool) (i : Nat)
    (h : pos_at_coords d ⟨row, col⟩ b = some i) :
    ∃ ls le, d.lineToChar row = some ls ∧ pos_line_end d row b = some le ∧
      i = ls + posWalk (sliceClusters d.clusters ls le) col 0 0 := by
  cases h1 : d.lineToChar row with
  | none => simp [pos_at_coords, h1] at h
  | some ls =>
    cases h2 : pos_line_end d row b with
    | none => simp [pos_at_coords, h1, h2] at h
    | some le =>
      refine ⟨ls, le, rfl, rfl, ?_⟩
      simp [pos_at_coords, h1, h2] at h
      omega

theorem lineToChar_eq_of_le (d : Doc) (row : Nat) (h : row ≤ d.lenLines) :
    d.lineToChar row = some (d.lineStart row) := by
  simp [Doc.lineToChar, h]

theorem lineToChar_none (d : Doc) (row : Nat) (h : d.lenLines < row) :
    d.lineToChar row = none := by
  simp [Doc.lineToChar, Nat.not_le.mpr h]

theorem line_end_eq_of_lt (d : Doc) (row : Nat) (h : row < d.lenLines) :
    line_end_char_index d row = some (d.lineStart row + clen (contentAt d row)) := by
  simp [line_end_char_index, h]

theorem line_end_none (d : Doc) (row : Nat) (h : d.lenLines ≤ row) :
    line_end_char_index d row = none := by
  simp [line_end_char_index, Nat.not_lt.mpr h]

theorem pos_line_end_false_eq (d : Doc) (row : Nat) (h : row < d.lenLines) :
    pos_line_end d row false = some (d.lineStart (row + 1)) := by
  have hmin : min (row + 1) d.lenLines = row + 1 := Nat.min_eq_left h
  simp [pos_line_end, hmin, lineToChar_eq_of_le d (row + 1) h]

theorem pos_line_end_false_top (d : Doc) (row : Nat) (h : d.lenLines ≤ row) :
    pos_line_end d row false = some d.len := by
  have hmin : min (row + 1) d.lenLines = d.lenLines := Nat.min_eq_right (by omega)
  simp [pos_line_end, hmin, lineToChar_eq_of_le d d.lenLines (Nat.le_refl _), lineStart_top]

/-! ### Per-line decomposition of the cluster sequence -/

theorem contentAt_cons_zero (hd : List Cluster × Term) (rest : List (List Cluster × Term))
    (last : List Cluster) : contentAt ⟨hd :: rest, last⟩ 0 = hd.1 := by
  simp [contentAt, lineList_cons]

theorem contentAt_cons_succ (hd : List Cluster × Term) (rest : List (List Cluster × Term))
    (last : List Cluster) (r : Nat) :
    contentAt ⟨hd :: rest, last⟩ (r + 1) = contentAt ⟨rest, last⟩ r := by
  simp [contentAt, lineList_cons]

theorem contentAt_nil_zero (last : List Cluster) : contentAt ⟨[], last⟩ 0 = last := by
  simp [contentAt, lineList_nil]

theorem termAt_cons_zero (hd : List Cluster × Term) (rest : List (List Cluster × Term))
    (last : List Cluster) : termAt ⟨hd :: rest, last⟩ 0 = [hd.2.cluster] := by
  simp [termAt, lineList_cons]

theorem termAt_cons_succ (hd : List Cluster × Term) (rest : List (List Cluster × Term))
    (last : List Cluster) (r : Nat) :
    termAt ⟨hd :: rest, last⟩ (r + 1) = termAt ⟨rest, last⟩ r := by
  simp [termAt, lineList_cons]

theorem termAt_nil_zero (last : List Cluster) : termAt ⟨[], last⟩ 0 = [] := by
  simp [termAt, lineList_nil]

theorem doc_decomp (d : Doc) (row : Nat) (hrow : row < d.lenLines) :
    ∃ pre post,
      d.clusters = pre ++ (contentAt d row ++ (termAt d row ++ post))
      ∧ clen pre = d.lineStart row
      ∧ d.lineStart (row + 1)
          = d.lineStart row + (clen (contentAt d row) + clen (termAt d row)) := by
  obtain ⟨body, last⟩ := d
  induction body generalizing row with
  | nil =>
    have h0 : row = 0 := by simpa [Doc.lenLines] using hrow
    subst h0
    refine ⟨[], [], ?_, by simp, ?_⟩
    · simp [clusters_nil, contentAt_nil_zero, termAt_nil_zero]
    · simp [lineStart_nil_one, contentAt_nil_zero, termAt_nil_zero, lineLen, termLenO]
  | cons hd rest ih =>
    cases row with
    | zero =>
      refine ⟨[], Doc.clusters ⟨rest, last⟩, ?_, by simp, ?_⟩
      · simp [clusters_cons, contentAt_cons_zero, termAt_cons_zero]
      · rw [contentAt_cons_zero, termAt_cons_zero]
        show Doc.lineStart ⟨hd :: rest, last⟩ (0 + 1) = _
        rw [lineStart_cons_succ]
        simp [lineLen, termLenO]
    | succ r =>
      have hr : r < Doc.lenLines ⟨rest, last⟩ := by
        have := hrow
        simp only [lenLines_cons] at this
        omega
      obtain ⟨pre, post, hcls, hclen, hstart⟩ := ih r hr
      refine ⟨(hd.1 ++ [hd.2.cluster]) ++ pre, post, ?_, ?_, ?_⟩
      · rw [clusters_cons, hcls, contentAt_cons_succ, termAt_cons_succ]
        simp [List.append_assoc]
      · rw [clen_append, clen_line_clusters, hclen, lineStart_cons_succ]
      · rw [contentAt_cons_succ, termAt_cons_succ, lineStart_cons_succ, lineStart_cons_succ,
          hstart]
        omega

theorem slice_content (d : Doc) (hwf : d.WF) (row : Nat) (hrow : row < d.lenLines) :
    sliceClusters d.clusters (d.lineStart row) (d.lineStart row + clen (contentAt d row))
      = contentAt d row := by
  obtain ⟨pre, post, hcls, hclen, _⟩ := doc_decomp d row hrow
  have hpre : ∀ c ∈ pre, 0 < c.len := by
    intro c hc
    exact (hwf c (by rw [hcls]; exact List.mem_append_left _ hc)).1
  have hcont : ∀ c ∈ contentAt d row, 0 < c.len := by
    intro c hc
    refine (hwf c ?_).1
    rw [hcls]
    exact List.mem_append_right _ (List.mem_append_left _ hc)
  unfold sliceClusters
  rw [hcls, ← hclen]
  have hd0 : dropC (pre ++ (contentAt d row ++ (termAt d row ++ post))) (clen pre)
      = contentAt d row ++ (termAt d row ++ post) := by
    simpa using dropC_split pre _ 0 hpre
  rw [hd0]
  have h1 : clen pre + clen (contentAt d row) - clen pre = clen (contentAt d row) := by omega
  rw [h1, takeC_exact _ _ hcont]

theorem slice_full_line (d : Doc) (hwf : d.WF) (row : Nat) (hrow : row < d.lenLines) :
    sliceClusters d.clusters (d.lineStart row) (d.lineStart (row + 1))
      = contentAt d row ++ termAt d row := by
  obtain ⟨pre, post, hcls, hclen, hstart⟩ := doc_decomp d row hrow
  have hpre : ∀ c ∈ pre, 0 < c.len := by
    intro c hc
    exact (hwf c (by rw [hcls]; exact List.mem_append_left _ hc)).1
  have hline : ∀ c ∈ contentAt d row ++ termAt d row, 0 < c.len := by
    intro c hc
    refine (hwf c ?_).1
    rw [hcls]
    rcases List.mem_append.mp hc with h | h
    · exact List.mem_append_right _ (List.mem_append_left _ h)
    · exact List.mem_append_right _ (List.mem_append_right _ (List.mem_append_left _ h))
  unfold sliceClusters
  rw [hcls, hstart, ← hclen]
  have hd0 : dropC (pre ++ (contentAt d row ++ (termAt d row ++ post))) (clen pre)
      = contentAt d row ++ (termAt d row ++ post) := by
    simpa using dropC_split pre _ 0 hpre
  have h1 : clen pre + (clen (contentAt d row) + clen (termAt d row)) - clen pre
      = clen (contentAt d row) + clen (termAt d row) := by omega
  rw [hd0, h1]
  have h2 : contentAt d row ++ (termAt d row ++ post)
      = (contentAt d row ++ termAt d row) ++ post := by simp [List.append_assoc]
  rw [h2]
  have h3 : clen (contentAt d row) + clen (termAt d row)
      = clen (contentAt d row ++ termAt d row) := by simp
  rw [h3, takeC_exact _ _ hline]

/-! ### Shift lemmas: dropping the first line of a document -/

theorem charToLineAux_shift (l : List Cluster × Option Term)
    (ls : List (List Cluster × Option Term)) (m : Nat) (h : ls ≠ []) :
    charToLineAux (l :: ls) (lineLen l + m) = charToLineAux ls m + 1 := by
  cases ls with
  | nil => exact absurd rfl h
  | cons l2 ls2 =>
    simp only [charToLineAux]
    rw [if_neg (by omega)]
    have h1 : lineLen l + m - lineLen l = m := by omega
    rw [h1]

theorem charToLineAux_within (l : List Cluster × Option Term)
    (ls : List (List Cluster × Option Term)) (m : Nat) (h : m < lineLen l) :
    charToLineAux (l :: ls) m = 0 := by
  cases ls with
  | nil => rfl
  | cons l2 ls2 => simp [charToLineAux, h]

theorem snap_shift (hd : List Cluster × Term) (rest : List (List Cluster × Term))
    (last : List Cluster) (m : Nat) :
    ensure_grapheme_boundary_prev ⟨hd :: rest, last⟩ (lineLen (hd.1, some hd.2) + m)
      = lineLen (hd.1, some hd.2) + ensure_grapheme_boundary_prev ⟨rest, last⟩ m := by
  unfold ensure_grapheme_boundary_prev
  rw [clusters_cons, ← clen_line_clusters, snapAux_split]

theorem slice_shift (hd : List Cluster × Term) (rest : List (List Cluster × Term))
    (last : List Cluster) (a b : Nat) (hwf : Doc.WF ⟨hd :: rest, last⟩) :
    sliceClusters (Doc.clusters ⟨hd :: rest, last⟩)
        (lineLen (hd.1, some hd.2) + a) (lineLen (hd.1, some hd.2) + b)
      = sliceClusters (Doc.clusters ⟨rest, last⟩) a b := by
  have hpos : ∀ c ∈ hd.1 ++ [hd.2.cluster], 0 < c.len :=
    fun c hc => (WF_head hd rest last hwf c hc).1
  unfold sliceClusters
  rw [clusters_cons, ← clen_line_clusters, dropC_split _ _ a hpos, Nat.add_sub_add_left]

theorem lineToChar_cons_succ (hd : List Cluster × Term) (rest : List (List Cluster × Term))
    (last : List Cluster) (r : Nat) :
    Doc.lineToChar ⟨hd :: rest, last⟩ (r + 1)
      = (Doc.lineToChar ⟨rest, last⟩ r).map (fun x => lineLen (hd.1, some hd.2) + x) := by
  have hL : Doc.lenLines ⟨hd :: rest, last⟩ = Doc.lenLines ⟨rest, last⟩ + 1 :=
    lenLines_cons _ _ _
  by_cases h : r ≤ Doc.lenLines ⟨rest, last⟩
  · rw [lineToChar_eq_of_le _ _ h, lineToChar_eq_of_le _ _ (by omega),
      lineStart_cons_succ]
    rfl
  · rw [lineToChar_none _ _ (by omega), lineToChar_none _ _ (by omega)]
    rfl

theorem line_end_cons_succ (hd : List Cluster × Term) (rest : List (List Cluster × Term))
    (last : List Cluster) (r : Nat) :
    line_end_char_index ⟨hd :: rest, last⟩ (r + 1)
      = (line_end_char_index ⟨rest, last⟩ r).map (fun x => lineLen (hd.1, some hd.2) + x) := by
  have hL : Doc.lenLines ⟨hd :: rest, last⟩ = Doc.lenLines ⟨rest, last⟩ + 1 :=
    lenLines_cons _ _ _
  by_cases h : r < Doc.lenLines ⟨rest, last⟩
  · rw [line_end_eq_of_lt _ _ h, line_end_eq_of_lt _ _ (by omega),
      lineStart_cons_succ, contentAt_cons_succ]
    simp [Nat.add_assoc]
  · rw [line_end_none _ _ (by omega), line_end_none _ _ (by omega)]
    rfl

theorem pos_line_end_cons_succ (hd : List Cluster × Term) (rest : List (List Cluster × Term))
    (last : List Cluster) (r : Nat) (b : Bool) :
    pos_line_end ⟨hd :: rest, last⟩ (r + 1) b
      = (pos_line_end ⟨rest, last⟩ r b).map (fun x => lineLen (hd.1, some hd.2) + x) := by
  cases b with
  | true => simpa [pos_line_end] using line_end_cons_succ hd rest last r
  | false =>
    simp only [pos_line_end, Bool.false_eq_true, if_false, lenLines_cons]
    have hmin : min (r + 1 + 1) (Doc.lenLines ⟨rest, last⟩ + 1)
        = min (r + 1) (Doc.lenLines ⟨rest, last⟩) + 1 := Nat.succ_min_succ _ _
    rw [hmin, lineToChar_cons_succ]

theorem coords_shift (hd : List Cluster × Term) (rest : List (List Cluster × Term))
    (last : List Cluster) (m : Nat) (hwf : Doc.WF ⟨hd :: rest, last⟩)
    (hm : m ≤ Doc.len ⟨rest, last⟩) :
    coords_at_pos ⟨hd :: rest, last⟩ (lineLen (hd.1, some hd.2) + m)
      = (coords_at_pos ⟨rest, last⟩ m).map (fun p => ⟨p.row + 1, p.col⟩) := by
  have hlen : lineLen (hd.1, some hd.2) + m ≤ Doc.len ⟨hd :: rest, last⟩ := by
    rw [len_cons]; omega
  rw [coords_at_pos_eq _ _ hlen, coords_at_pos_eq _ _ hm]
  have hrow : charToLineAux (Doc.lineList ⟨hd :: rest, last⟩) (lineLen (hd.1, some hd.2) + m)
      = charToLineAux (Doc.lineList ⟨rest, last⟩) m + 1 := by
    rw [lineList_cons]
    exact charToLineAux_shift _ _ m (lineList_ne_nil _)
  rw [hrow]
  simp only [Option.map_some']
  have hls : Doc.lineStart ⟨hd :: rest, last⟩ (charToLineAux (Doc.lineList ⟨rest, last⟩) m + 1)
      = lineLen (hd.1, some hd.2) + Doc.lineStart ⟨rest, last⟩ (charToLineAux (Doc.lineList ⟨rest, last⟩) m) :=
    lineStart_cons_succ hd rest last _
  rw [hls, snap_shift, slice_shift hd rest last _ _ hwf]

theorem pos_shift (hd : List Cluster × Term) (rest : List (List Cluster × Term))
    (last : List Cluster) (r c : Nat) (b : Bool) (j : Nat)
    (hwf : Doc.WF ⟨hd :: rest, last⟩)
    (h : pos_at_coords ⟨rest, last⟩ ⟨r, c⟩ b = some j) :
    pos_at_coords ⟨hd :: rest, last⟩ ⟨r + 1, c⟩ b = some (lineLen (hd.1, some hd.2) + j) := by
  obtain ⟨ls, le, h1, h2, h3⟩ := pos_at_coords_inv _ _ _ _ _ h
  have h1s : Doc.lineToChar ⟨hd :: rest, last⟩ (r + 1)
      = some (lineLen (hd.1, some hd.2) + ls) := by
    rw [lineToChar_cons_succ, h1]; rfl
  have h2s : pos_line_end ⟨hd :: rest, last⟩ (r + 1) b
      = some (lineLen (hd.1, some hd.2) + le) := by
    rw [pos_line_end_cons_succ, h2]; rfl
  rw [pos_at_coords_eq _ _ _ _ _ _ h1s h2s, slice_shift hd rest last _ _ hwf]
  rw [h3]
  congr 1
  omega

/-! ### In-line column lemmas -/

theorem colInLine_ge (cs : List Cluster) (m : Nat) (h : clen cs ≤ m) :
    colInLine cs m = cwidth cs := by
  induction cs generalizing m with
  | nil => rfl
  | cons c cs ih =>
    simp only [clen_cons] at h
    simp only [colInLine, cwidth_cons]
    rw [if_pos (by omega), ih (m - c.len) (by omega)]

theorem colInLine_front (xs : List Cluster) (y : Cluster) (rest : List Cluster) (pos : Nat)
    (h : pos < clen xs + y.len) :
    colInLine (xs ++ y :: rest) pos = colInLine xs pos := by
  induction xs generalizing pos with
  | nil =>
    simp only [clen_nil, Nat.zero_add] at h
    simp [colInLine, Nat.not_le.mpr h]
  | cons x xs ih =>
    simp only [clen_cons] at h
    simp only [List.cons_append, colInLine, List.append_eq]
    by_cases hx : x.len ≤ pos
    · rw [if_pos hx, if_pos hx, ih (pos - x.len) (by omega)]
    · rw [if_neg hx, if_neg hx]

theorem snap_take_cwidth (cs : List Cluster) (pos : Nat) (h : ∀ c ∈ cs, 0 < c.len) :
    cwidth (takeC cs (snapPrevAux cs pos)) = colInLine cs pos := by
  induction cs generalizing pos with
  | nil => simp [snapPrevAux, colInLine]
  | cons c cs ih =>
    have hc : 0 < c.len := h c (by simp)
    have hx : ∀ c2 ∈ cs, 0 < c2.len := fun c2 hc2 => h c2 (by simp [hc2])
    by_cases hlt : pos < c.len
    · simp [snapPrevAux, hlt, colInLine, Nat.not_le.mpr hlt]
    · simp only [snapPrevAux, colInLine]
      rw [if_neg hlt, if_pos (by omega)]
      obtain ⟨k, hk⟩ : ∃ k, c.len + snapPrevAux cs (pos - c.len) = k + 1 :=
        ⟨c.len + snapPrevAux cs (pos - c.len) - 1, by omega⟩
      rw [hk]
      show cwidth (takeC (c :: cs) (k + 1)) = c.width + colInLine cs (pos - c.len)
      simp only [takeC]
      rw [if_pos (by omega)]
      have h2 : k + 1 - c.len = snapPrevAux cs (pos - c.len) := by omega
      rw [cwidth_cons, h2, ih (pos - c.len) hx]

/-! ### Inversion and definedness lemmas -/

theorem clen_takeC_le (cs : List Cluster) (n : Nat) : clen (takeC cs n) ≤ n := by
  induction cs generalizing n with
  | nil => cases n <;> simp [takeC]
  | cons c cs ih =>
    cases n with
    | zero => simp
    | succ n =>
      simp only [takeC]
      split
      · have := ih (n + 1 - c.len)
        simp only [clen_cons]
        omega
      · simp

theorem drop_cons_getD (cs : List Cluster) (k : Nat) (h : k < cs.length) :
    cs.drop k = cs.getD k ⟨0, 0⟩ :: cs.drop (k + 1) := by
  induction cs generalizing k with
  | nil => simp at h
  | cons c cs ih =>
    cases k with
    | zero => simp
    | succ k =>
      simp only [List.drop_succ_cons, List.getD_cons_succ]
      exact ih k (by simpa using h)

theorem lineToChar_inv (d : Doc) (row ls : Nat) (h : d.lineToChar row = some ls) :
    ls = d.lineStart row ∧ row ≤ d.lenLines := by
  unfold Doc.lineToChar at h
  split at h
  · exact ⟨(Option.some.inj h).symm, by assumption⟩
  · exact absurd h (by simp)

theorem line_end_inv (d : Doc) (row le : Nat) (h : line_end_char_index d row = some le) :
    le = d.lineStart row + clen (contentAt d row) ∧ row < d.lenLines := by
  unfold line_end_char_index at h
  split at h
  · exact ⟨(Option.some.inj h).symm, by assumption⟩
  · exact absurd h (by simp)

theorem pos_line_end_true_def (d : Doc) (row : Nat) :
    pos_line_end d row true = line_end_char_index d row := rfl

theorem coords_isSome_iff (d : Doc) (pos : Nat) :
    (coords_at_pos d pos).isSome ↔ pos ≤ d.len := by
  by_cases h : pos ≤ d.len
  · simp [coords_at_pos_eq d pos h, h]
  · simp [coords_at_pos_none d pos (by omega), h]

theorem pos_isSome_true_iff (d : Doc) (row col : Nat) :
    (pos_at_coords d ⟨row, col⟩ true).isSome ↔ row < d.lenLines := by
  by_cases h : row < d.lenLines
  · rw [pos_at_coords_eq d row col true _ _ (lineToChar_eq_of_le d row (by omega))
      ((pos_line_end_true_def d row).trans (line_end_eq_of_lt d row h))]
    simp [h]
  · cases h1 : d.lineToChar row with
    | none => simp [pos_at_coords, h1, h]
    | some ls =>
      simp [pos_at_coords, h1, pos_line_end_true_def, line_end_none d row (by omega), h]

theorem pos_isSome_false_iff (d : Doc) (row col : Nat) :
    (pos_at_coords d ⟨row, col⟩ false).isSome ↔ row ≤ d.lenLines := by
  by_cases h : row ≤ d.lenLines
  · have h2 : ∃ le, pos_line_end d row false = some le := by
      by_cases hlt : row < d.lenLines
      · exact ⟨_, pos_line_end_false_eq d row hlt⟩
      · exact ⟨_, pos_line_end_false_top d row (by omega)⟩
    obtain ⟨le, h2⟩ := h2
    rw [pos_at_coords_eq d row col false _ _ (lineToChar_eq_of_le d row h) h2]
    simp [h]
  · simp [pos_at_coords, lineToChar_none d row (by omega), h]

/-! ### Equivalence of the traverse scan with its specification -/

theorem traverseAux_cons (row col : Nat) (c : Char) (rest : List Char) :
    traverseAux row col (c :: rest)
      = if char_is_line_ending c && !(c == '\r' && rest.head? == some '\n') then
          traverseAux (row + 1) 0 rest
        else traverseAux row (col + 1) rest := rfl

theorem traverseSpec_cons (p : Position) (c : Char) (rest : List Char) :
    traverseSpec p (c :: rest)
      = traverseSpec
          (if c = '\n' ∨ (c = '\r' ∧ rest.head? ≠ some '\n') then ⟨p.row + 1, 0⟩
           else if c = '\r' then p
           else ⟨p.row, p.col + 1⟩)
          rest := rfl

theorem traverseAux_eq_spec (cs : List Char) : ∀ (row col : Nat),
    traverseAux row col cs = traverseSpec ⟨row, col⟩ cs := by
  induction cs with
  | nil => intro row col; rfl
  | cons c rest ih =>
    intro row col
    rw [traverseAux_cons, traverseSpec_cons]
    by_cases hn : c = '\n'
    · subst hn
      rw [if_pos (by simp [char_is_line_ending]), if_pos (Or.inl rfl)]
      exact ih (row + 1) 0
    · by_cases hr : c = '\r'
      · subst hr
        cases hh : rest.head? with
        | none =>
          rw [if_pos (by decide), if_pos (Or.inr ⟨rfl, by decide⟩)]
          exact ih (row + 1) 0
        | some c2 =>
          by_cases hc2 : c2 = '\n'
          · subst hc2
            obtain ⟨rest2, hrest⟩ : ∃ rest2, rest = '\n' :: rest2 := by
              cases rest with
              | nil => simp at hh
              | cons r0 r1 =>
                simp only [List.head?_cons, Option.some.injEq] at hh
                exact ⟨r1, by rw [hh]⟩
            rw [if_neg (by decide), if_neg (by simp), if_pos rfl,
              ih row (col + 1)]
            subst hrest
            rw [traverseSpec_cons, traverseSpec_cons]
            rw [if_pos (Or.inl rfl), if_pos (Or.inl rfl)]
          · rw [if_pos (by simp [char_is_line_ending, hc2]),
              if_pos (Or.inr ⟨rfl, by simp [hc2]⟩)]
            exact ih (row + 1) 0
      · rw [if_neg (by simp [char_is_line_ending, hn, hr]), if_neg (by simp [hn, hr]),
          if_neg hr]
        exact ih row (col + 1)

/-! ### Claim theorems -/

/-- Claim C6: for every starting coordinate and appended text,
`Position.traverse` equals the character-by-character scan in which each
line-terminator sequence (newline, lone carriage return, or a
carriage-return/newline pair taken as one unit) increments the row and
resets the column, and every other character increments the column,
columns being counted in raw characters. -/
theorem traverse_matches_spec :
    ∀ (p : Position) (text : List Char), Position.traverse p text = traverseSpec p text :=
  fun p text => traverseAux_eq_spec text p.row p.col

/-- Claim C7 counterexample: on a one-line, one-character document the row
index `1` lies beyond the line count, yet `pos_at_coords` in non-block
mode does not fault: it silently returns the text length. -/
theorem fail_fast_cex :
    Doc.lenLines exSingle = 1 ∧ pos_at_coords exSingle ⟨1, 0⟩ false = some 1 := by
  decide

/-- Claim C7 (amended): in-range queries complete without faulting, and
out-of-range queries fault — except that non-block `pos_at_coords` also
accepts a row equal to the line count, returning the text length instead
of faulting: `coords_at_pos` is defined exactly for `pos ≤ len`, block
`pos_at_coords` exactly for `row < lenLines`, and non-block
`pos_at_coords` exactly for `row ≤ lenLines`. -/
theorem fail_fast_amended :
    (∀ (d : Doc) (pos : Nat), (coords_at_pos d pos).isSome ↔ pos ≤ d.len)
    ∧ (∀ (d : Doc) (row col : Nat), (pos_at_coords d ⟨row, col⟩ true).isSome ↔ row < d.lenLines)
    ∧ (∀ (d : Doc) (row col : Nat),
        (pos_at_coords d ⟨row, col⟩ false).isSome ↔ row ≤ d.lenLines) :=
  ⟨coords_isSome_iff, pos_isSome_true_iff, pos_isSome_false_iff⟩

/-- Claim C8: the index returned by `pos_at_coords` is non-decreasing in
the requested column, for any document, row and cursor mode. -/
theorem pos_at_coords_col_mono (d : Doc) (row col1 col2 : Nat) (b : Bool)
    (hcol : col1 ≤ col2) (i j : Nat)
    (hi : pos_at_coords d ⟨row, col1⟩ b = some i)
    (hj : pos_at_coords d ⟨row, col2⟩ b = some j) : i ≤ j := by
  obtain ⟨ls, le, h1, h2, h3⟩ := pos_at_coords_inv _ _ _ _ _ hi
  obtain ⟨ls2, le2, h1b, h2b, h3b⟩ := pos_at_coords_inv _ _ _ _ _ hj
  have hls : ls = ls2 := Option.some.inj (h1.symm.trans h1b)
  have hle : le = le2 := Option.some.inj (h2.symm.trans h2b)
  subst hls hle h3 h3b
  have := walk_mono_col (sliceClusters d.clusters ls le) col1 col2 0 0 hcol
  omega

/-- Witness for claim C8 at a concrete document and column pair. -/
theorem pos_at_coords_col_mono_witness :
    (1 : Nat) ≤ 3
    ∧ pos_at_coords exWide ⟨0, 1⟩ false = some 0
    ∧ pos_at_coords exWide ⟨0, 3⟩ false = some 1
    ∧ (0 : Nat) ≤ 1 :=
  ⟨by decide, by decide, by decide,
    pos_at_coords_col_mono exWide 0 1 3 false (by decide) 0 1 (by decide) (by decide)⟩

/-- Claim C10: for every valid row, the index returned by `pos_at_coords`
lies between the starting index of that row and the line end computed for
the chosen mode, inclusive, and that line end never passes the start of
the next row. -/
theorem pos_in_line_bounds (d : Doc) (row col : Nat) (b : Bool)
    (hrow : row < d.lenLines) :
    ∃ i le, pos_at_coords d ⟨row, col⟩ b = some i
      ∧ pos_line_end d row b = some le
      ∧ d.lineStart row ≤ i ∧ i ≤ le ∧ le ≤ d.lineStart (row + 1) := by
  obtain ⟨pre, post, hcls, hclen, hstart⟩ := doc_decomp d row hrow
  have h1 : d.lineToChar row = some (d.lineStart row) := lineToChar_eq_of_le d row (by omega)
  have hle : ∃ le, pos_line_end d row b = some le
      ∧ d.lineStart row ≤ le ∧ le ≤ d.lineStart (row + 1) := by
    cases b with
    | true =>
      refine ⟨d.lineStart row + clen (contentAt d row),
        (pos_line_end_true_def d row).trans (line_end_eq_of_lt d row hrow), by omega, by omega⟩
    | false =>
      exact ⟨d.lineStart (row + 1), pos_line_end_false_eq d row hrow, by omega, by omega⟩
  obtain ⟨le, h2, hlsle, hlenext⟩ := hle
  refine ⟨d.lineStart row
      + posWalk (sliceClusters d.clusters (d.lineStart row) le) col 0 0, le,
    pos_at_coords_eq d row col b _ _ h1 h2, h2, by omega, ?_, hlenext⟩
  have hwalk := walk_le (sliceClusters d.clusters (d.lineStart row) le) col 0 0
  have htake : clen (sliceClusters d.clusters (d.lineStart row) le)
      ≤ le - d.lineStart row := by
    unfold sliceClusters
    exact clen_takeC_le _ _
  omega

/-- Witness for claim C10 at a concrete document and row. -/
theorem pos_in_line_bounds_witness :
    0 < exHello.lenLines
    ∧ (∃ i le, pos_at_coords exHello ⟨0, 9⟩ false = some i
        ∧ pos_line_end exHello 0 false = some le
        ∧ exHello.lineStart 0 ≤ i ∧ i ≤ le ∧ le ≤ exHello.lineStart 1) :=
  ⟨by decide, pos_in_line_bounds exHello 0 9 false (by decide)⟩

/-- Claim C2 counterexample: on the five-character first line of the
mirrored test document, the block-cursor query at column six returns
index `5`, the index of the line's terminator, which exceeds the index
`4` of the line's last content character. -/
theorem block_clamp_cex :
    pos_at_coords exHello ⟨0, 6⟩ true = some 5
    ∧ line_end_char_index exHello 0 = some 5
    ∧ ¬ (5 : Nat) ≤ 4 := by
  decide

/-- Claim C2 (amended): the block-cursor result never exceeds
`line_end_char_index`, the index of the line's terminating character —
one position past the last content character, not the last content
character's own index — while the non-block query at the same column may
return the index past the line terminator. -/
theorem block_clamp_amended :
    (∀ (d : Doc) (row col i le : Nat), pos_at_coords d ⟨row, col⟩ true = some i →
      line_end_char_index d row = some le → i ≤ le)
    ∧ pos_at_coords exHello ⟨0, 6⟩ false = some 6 := by
  constructor
  · intro d row col i le hi hle
    obtain ⟨ls, le2, h1, h2, h3⟩ := pos_at_coords_inv _ _ _ _ _ hi
    have hle2 : le2 = le := Option.some.inj ((pos_line_end_true_def d row ▸ h2).symm.trans hle)
    rw [hle2] at h3
    obtain ⟨hls, _⟩ := lineToChar_inv d row ls h1
    obtain ⟨hlev, _⟩ := line_end_inv d row le hle
    have hwalk := walk_le (sliceClusters d.clusters ls le) col 0 0
    have htake : clen (sliceClusters d.clusters ls le) ≤ le - ls := by
      unfold sliceClusters
      exact clen_takeC_le _ _
    omega
  · decide

/-- Witness for the amended claim C2 at the mirrored test document. -/
theorem block_clamp_amended_witness :
    pos_at_coords exHello ⟨0, 6⟩ true = some 5
    ∧ line_end_char_index exHello 0 = some 5
    ∧ (5 : Nat) ≤ 5 :=
  ⟨by decide, by decide,
    block_clamp_amended.1 exHello 0 6 5 5 (by decide) (by decide)⟩

/-- Claim C9: for every well-formed document, row and column, the
block-cursor result of `pos_at_coords` never exceeds the non-block
result. -/
theorem block_le_nonblock (d : Doc) (hwf : d.WF) (row col : Nat) (i j : Nat)
    (hi : pos_at_coords d ⟨row, col⟩ true = some i)
    (hj : pos_at_coords d ⟨row, col⟩ false = some j) : i ≤ j := by
  have hrow : row < d.lenLines := (pos_isSome_true_iff d row col).mp (by rw [hi]; rfl)
  obtain ⟨ls, le1, h1, h2, h3⟩ := pos_at_coords_inv _ _ _ _ _ hi
  obtain ⟨ls2, le2, h1b, h2b, h3b⟩ := pos_at_coords_inv _ _ _ _ _ hj
  have hls2 : ls2 = ls := Option.some.inj (h1b.symm.trans h1)
  obtain ⟨hls, _⟩ := lineToChar_inv d row ls h1
  have hle1 : le1 = d.lineStart row + clen (contentAt d row) :=
    (line_end_inv d row le1 ((pos_line_end_true_def d row).symm.trans h2)).1
  have hle2 : le2 = d.lineStart (row + 1) :=
    Option.some.inj (h2b.symm.trans (pos_line_end_false_eq d row hrow))
  have hs1 : sliceClusters d.clusters ls le1 = contentAt d row := by
    rw [hls, hle1]
    exact slice_content d hwf row hrow
  have hs2 : sliceClusters d.clusters ls le2 = contentAt d row ++ termAt d row := by
    rw [hls, hle2]
    exact slice_full_line d hwf row hrow
  rw [h3, h3b, hls2, hs1, hs2]
  have := walk_app_le (contentAt d row) (termAt d row) col 0 0
  omega

/-- Witness for claim C9 at the mirrored test document. -/
theorem block_le_nonblock_witness :
    exHello.WF ∧ pos_at_coords exHello ⟨0, 6⟩ true = some 5
    ∧ pos_at_coords exHello ⟨0, 6⟩ false = some 6 ∧ (5 : Nat) ≤ 6 :=
  ⟨by decide, by decide, by decide,
    block_le_nonblock exHello (by decide) 0 6 5 6 (by decide) (by decide)⟩

/-- Claim C5: the inverse mapping never splits a cluster: a target column
at or strictly inside the span of the cluster at position `k` of the
walked cluster sequence resolves to the character index before that
cluster, the cluster being consumed only once the column fully covers its
width; and a target column at or beyond the line's total width returns
the index of `line_end`. -/
theorem pos_at_coords_tie_break (d : Doc) (hwf : d.WF) (row col k : Nat) (b : Bool)
    (hrow : row < d.lenLines) (le : Nat) (hle : pos_line_end d row b = some le) :
    (k < (sliceClusters d.clusters (d.lineStart row) le).length →
      cwidth ((sliceClusters d.clusters (d.lineStart row) le).take k) ≤ col →
      col < cwidth ((sliceClusters d.clusters (d.lineStart row) le).take k)
          + ((sliceClusters d.clusters (d.lineStart row) le).getD k ⟨0, 0⟩).width →
      pos_at_coords d ⟨row, col⟩ b
        = some (d.lineStart row
            + clen ((sliceClusters d.clusters (d.lineStart row) le).take k)))
    ∧ (cwidth (sliceClusters d.clusters (d.lineStart row) le) ≤ col →
      pos_at_coords d ⟨row, col⟩ b = some le) := by
  have h1 : d.lineToChar row = some (d.lineStart row) := lineToChar_eq_of_le d row (by omega)
  have heq := pos_at_coords_eq d row col b _ _ h1 hle
  set cs := sliceClusters d.clusters (d.lineStart row) le with hcs
  constructor
  · intro hk hlo hhi
    rw [heq]
    have hsplit : cs = cs.take k ++ cs.drop k := (List.take_append_drop k cs).symm
    have hdrop : cs.drop k = cs.getD k ⟨0, 0⟩ :: cs.drop (k + 1) := drop_cons_getD cs k hk
    have hw : posWalk cs col 0 0 = clen (cs.take k) := by
      conv_lhs => rw [hsplit]
      rw [walk_consume (cs.take k) (cs.drop k) col 0 0 (by omega), hdrop,
        walk_stop _ _ _ _ _ (by omega)]
      omega
    rw [hw]
  · intro hcw
    rw [heq, walk_all cs col 0 0 (by omega)]
    have hval : d.lineStart row + (0 + clen cs) = le := by
      cases b with
      | true =>
        have hlev : le = d.lineStart row + clen (contentAt d row) :=
          (line_end_inv d row le ((pos_line_end_true_def d row).symm.trans hle)).1
        have hcseq : cs = contentAt d row := by
          rw [hcs, hlev]
          exact slice_content d hwf row hrow
        rw [hcseq, hlev]
        omega
      | false =>
        have hlev : le = d.lineStart (row + 1) :=
          Option.some.inj (hle.symm.trans (pos_line_end_false_eq d row hrow))
        have hcseq : cs = contentAt d row ++ termAt d row := by
          rw [hcs, hlev]
          exact slice_full_line d hwf row hrow
        obtain ⟨pre, post, hc, hcl, hstart⟩ := doc_decomp d row hrow
        rw [hcseq, hlev, hstart, clen_append]
        omega
    rw [hval]

/-- Witness for claim C5 on the wide-character test document: the target
column three falls strictly inside the second double-width cluster and
resolves to index one; column eleven lies beyond the line's total width
ten plus the terminator and returns the line end. -/
theorem pos_at_coords_tie_break_witness :
    (exWide.WF ∧ 0 < exWide.lenLines ∧ pos_line_end exWide 0 false = some 6
      ∧ pos_at_coords exWide ⟨0, 3⟩ false
          = some (exWide.lineStart 0
              + clen ((sliceClusters exWide.clusters (exWide.lineStart 0) 6).take 1)))
    ∧ pos_at_coords exWide ⟨0, 11⟩ false = some 6 :=
  ⟨⟨by decide, by decide, by decide,
      (pos_at_coords_tie_break exWide (by decide) 0 3 1 false (by decide) 6 (by decide)).1
        (by decide) (by decide) (by decide)⟩,
    (pos_at_coords_tie_break exWide (by decide) 0 11 1 false (by decide) 6 (by decide)).2
      (by decide)⟩

/-! ### Boundary preservation of both mappings -/

theorem charToLine_snap (d : Doc) (pos : Nat) :
    charToLineAux d.lineList (ensure_grapheme_boundary_prev d pos)
      = charToLineAux d.lineList pos := by
  obtain ⟨body, last⟩ := d
  induction body generalizing pos with
  | nil => rfl
  | cons hd rest ih =>
    by_cases hlt : pos < lineLen (hd.1, some hd.2)
    · have h1 : ensure_grapheme_boundary_prev ⟨hd :: rest, last⟩ pos ≤ pos :=
        snapAux_le _ _
      rw [lineList_cons, charToLineAux_within _ _ pos hlt,
        charToLineAux_within _ _ _ (by omega)]
    · obtain ⟨m, hm⟩ : ∃ m, pos = lineLen (hd.1, some hd.2) + m :=
        ⟨pos - lineLen (hd.1, some hd.2), by omega⟩
      subst hm
      rw [snap_shift, lineList_cons,
        charToLineAux_shift _ _ _ (lineList_ne_nil ⟨rest, last⟩),
        charToLineAux_shift _ _ _ (lineList_ne_nil ⟨rest, last⟩), ih m]

theorem coords_at_snap (d : Doc) (pos : Nat) (h : pos ≤ d.len) :
    coords_at_pos d pos = coords_at_pos d (ensure_grapheme_boundary_prev d pos) := by
  have hsle : ensure_grapheme_boundary_prev d pos ≤ pos := snapAux_le _ _
  rw [coords_at_pos_eq d pos h, coords_at_pos_eq d _ (by omega), charToLine_snap]
  have hidem : ensure_grapheme_boundary_prev d (ensure_grapheme_boundary_prev d pos)
      = ensure_grapheme_boundary_prev d pos := snapAux_idem _ _
  rw [hidem]

theorem pos_result_boundary (d : Doc) (hwf : d.WF) (row col : Nat) (b : Bool) (i : Nat)
    (h : pos_at_coords d ⟨row, col⟩ b = some i) : IsBoundary d i := by
  obtain ⟨ls, le, h1, h2, h3⟩ := pos_at_coords_inv _ _ _ _ _ h
  obtain ⟨hls, hrle⟩ := lineToChar_inv d row ls h1
  by_cases hrow : row < d.lenLines
  · have hcs : ∃ tail, sliceClusters d.clusters ls le ++ tail
        = contentAt d row ++ termAt d row := by
      cases b with
      | true =>
        have hlev : le = d.lineStart row + clen (contentAt d row) :=
          (line_end_inv d row le ((pos_line_end_true_def d row).symm.trans h2)).1
        exact ⟨termAt d row, by rw [hls, hlev, slice_content d hwf row hrow]⟩
      | false =>
        have hlev : le = d.lineStart (row + 1) :=
          Option.some.inj (h2.symm.trans (pos_line_end_false_eq d row hrow))
        exact ⟨[], by rw [hls, hlev, slice_full_line d hwf row hrow, List.append_nil]⟩
    obtain ⟨tail, htail⟩ := hcs
    obtain ⟨k, hk, hwalk⟩ := walk_take (sliceClusters d.clusters ls le) col 0 0
    obtain ⟨pre, post, hc, hcl, _⟩ := doc_decomp d row hrow
    set cs := sliceClusters d.clusters ls le with hcsdef
    have hclusters : d.clusters = (pre ++ cs.take k) ++ (cs.drop k ++ (tail ++ post)) := by
      rw [hc]
      have hct : contentAt d row ++ (termAt d row ++ post) = cs ++ (tail ++ post) := by
        rw [← List.append_assoc, ← htail, List.append_assoc]
      have hcs2 : cs ++ (tail ++ post) = List.take k cs ++ (List.drop k cs ++ (tail ++ post)) := by
        conv_lhs => rw [← List.take_append_drop k cs]
        rw [List.append_assoc]
      rw [hct, hcs2, List.append_assoc]
    have hcleni : clen (pre ++ cs.take k) = i := by
      rw [clen_append, hcl, ← hls]
      omega
    unfold IsBoundary ensure_grapheme_boundary_prev
    rw [hclusters, ← hcleni]
    exact boundary_intro _ _
  · cases b with
    | true =>
      exact absurd ((pos_isSome_true_iff d row col).mp (by rw [h]; rfl)) hrow
    | false =>
      have hrowe : row = d.lenLines := by omega
      have hle : le = d.len :=
        Option.some.inj (h2.symm.trans (pos_line_end_false_top d row (by omega)))
      have hlse : ls = d.len := by rw [hls, hrowe, lineStart_top]
      have hslice : sliceClusters d.clusters ls le = [] := by
        unfold sliceClusters
        rw [hle, hlse, Nat.sub_self]
        exact takeC_zero _
      rw [hslice] at h3
      have hi : i = d.len := by
        rw [h3, hlse]
        simp [posWalk]
      unfold IsBoundary ensure_grapheme_boundary_prev
      rw [hi]
      have := boundary_intro d.clusters []
      simpa [Doc.len] using this

/-- Claim C4: both mappings only report grapheme-cluster boundaries: the
index whose coordinates `coords_at_pos` reports is the backward-snapped
index, which is a boundary and yields the same coordinates as the raw
input, so an input strictly inside a cluster (between a base character
and its mark, or between the carriage return and newline of a pair)
resolves to the boundary before it; and every index returned by
`pos_at_coords` is a boundary. -/
theorem boundary_invariant :
    (∀ (d : Doc) (pos : Nat), pos ≤ d.len →
      IsBoundary d (ensure_grapheme_boundary_prev d pos)
      ∧ coords_at_pos d pos = coords_at_pos d (ensure_grapheme_boundary_prev d pos))
    ∧ (∀ (d : Doc), d.WF → ∀ (row col : Nat) (b : Bool) (i : Nat),
        pos_at_coords d ⟨row, col⟩ b = some i → IsBoundary d i) :=
  ⟨fun d pos h => ⟨snapAux_idem _ _, coords_at_snap d pos h⟩,
   fun d hwf row col b i h => pos_result_boundary d hwf row col b i h⟩

/-- Witness for claim C4: index eight of the combining-cluster document
lies strictly between the carriage return and the newline; the forward
mapping resolves it to the boundary at seven, and a concrete inverse
query lands on that boundary. -/
theorem boundary_invariant_witness :
    (8 ≤ exCombining.len
      ∧ IsBoundary exCombining (ensure_grapheme_boundary_prev exCombining 8)
      ∧ coords_at_pos exCombining 8
          = coords_at_pos exCombining (ensure_grapheme_boundary_prev exCombining 8))
    ∧ (exCombining.WF ∧ pos_at_coords exCombining ⟨0, 3⟩ false = some 7
        ∧ IsBoundary exCombining 7) :=
  ⟨⟨by decide, (boundary_invariant.1 exCombining 8 (by decide)).1,
      (boundary_invariant.1 exCombining 8 (by decide)).2⟩,
    ⟨by decide, by decide,
      boundary_invariant.2 exCombining (by decide) 0 3 false 7 (by decide)⟩⟩

/-! ### The forward mapping refines its line-by-line specification -/

theorem coords_refines_aux (last : List Cluster) (body : List (List Cluster × Term)) :
    Doc.WF ⟨body, last⟩ → ∀ pos, pos ≤ Doc.len ⟨body, last⟩ →
      coords_at_pos ⟨body, last⟩ pos = some (coordsSpec ⟨body, last⟩ pos) := by
  induction body with
  | nil =>
    intro hwf pos h
    rw [coords_at_pos_eq _ _ h]
    have hrow : charToLineAux (Doc.lineList ⟨[], last⟩) pos = 0 := rfl
    rw [hrow, lineStart_zero]
    have hpos : ∀ c ∈ last, 0 < c.len := by
      intro c hc
      exact (hwf c (by rw [clusters_nil]; exact hc)).1
    have hcol : cwidth (sliceClusters (Doc.clusters ⟨[], last⟩) 0
        (ensure_grapheme_boundary_prev ⟨[], last⟩ pos)) = colInLine last pos := by
      unfold sliceClusters ensure_grapheme_boundary_prev
      rw [dropC_zero, Nat.sub_zero, clusters_nil]
      exact snap_take_cwidth last pos hpos
    rw [hcol]
    rfl
  | cons hd rest ih =>
    intro hwf pos h
    by_cases hlt : pos < lineLen (hd.1, some hd.2)
    · rw [coords_at_pos_eq _ _ h]
      have hrow : charToLineAux (Doc.lineList ⟨hd :: rest, last⟩) pos = 0 := by
        rw [lineList_cons]
        exact charToLineAux_within _ _ pos hlt
      rw [hrow, lineStart_zero]
      have hpos : ∀ c ∈ Doc.clusters ⟨hd :: rest, last⟩, 0 < c.len :=
        fun c hc => (hwf c hc).1
      have hcol : cwidth (sliceClusters (Doc.clusters ⟨hd :: rest, last⟩) 0
          (ensure_grapheme_boundary_prev ⟨hd :: rest, last⟩ pos)) = colInLine hd.1 pos := by
        unfold sliceClusters ensure_grapheme_boundary_prev
        rw [dropC_zero, Nat.sub_zero, snap_take_cwidth _ pos hpos, clusters_cons]
        have hassoc : (hd.1 ++ [hd.2.cluster]) ++ Doc.clusters ⟨rest, last⟩
            = hd.1 ++ (hd.2.cluster :: Doc.clusters ⟨rest, last⟩) := by simp
        rw [hassoc]
        refine colInLine_front hd.1 hd.2.cluster _ pos ?_
        have hlen : lineLen (hd.1, some hd.2) = clen hd.1 + hd.2.len := rfl
        rw [term_cluster_len]
        omega
      rw [hcol]
      have hspec : coordsSpec ⟨hd :: rest, last⟩ pos = ⟨0, colInLine hd.1 pos⟩ := by
        unfold coordsSpec
        rw [lineList_cons]
        cases hls : Doc.lineList ⟨rest, last⟩ with
        | nil => exact absurd hls (lineList_ne_nil _)
        | cons l2 ls2 =>
          show coordsSpecAux ((hd.1, some hd.2) :: l2 :: ls2) pos = _
          simp only [coordsSpecAux]
          rw [if_pos hlt]
      rw [hspec]
    · obtain ⟨m, hm⟩ : ∃ m, pos = lineLen (hd.1, some hd.2) + m :=
        ⟨pos - lineLen (hd.1, some hd.2), by omega⟩
      subst hm
      have hm2 : m ≤ Doc.len ⟨rest, last⟩ := by
        rw [len_cons] at h
        omega
      rw [coords_shift hd rest last m hwf hm2, ih (WF_tail hd rest last hwf) m hm2]
      have hspec : coordsSpec ⟨hd :: rest, last⟩ (lineLen (hd.1, some hd.2) + m)
          = ⟨(coordsSpec ⟨rest, last⟩ m).row + 1, (coordsSpec ⟨rest, last⟩ m).col⟩ := by
        unfold coordsSpec
        rw [lineList_cons]
        cases hls : Doc.lineList ⟨rest, last⟩ with
        | nil => exact absurd hls (lineList_ne_nil _)
        | cons l2 ls2 =>
          show coordsSpecAux ((hd.1, some hd.2) :: l2 :: ls2) (lineLen (hd.1, some hd.2) + m)
            = _
          simp only [coordsSpecAux]
          rw [if_neg (by omega)]
          have harg : lineLen (hd.1, some hd.2) + m - lineLen (hd.1, some hd.2) = m := by
            omega
          rw [harg]
      rw [hspec]
      rfl

/-- Claim C3: the forward mapping satisfies its postcondition: for every
well-formed document and in-range index, `coords_at_pos` returns exactly
the row of the index's line paired with the summed visual widths of the
grapheme clusters between that line's start and the index snapped back to
a cluster boundary, as computed by the independent line-by-line
specification `coordsSpec`; a base-plus-marks cluster therefore
contributes one cluster width, never one column per mark, and the
mirrored `"hello\ngoodbye"`-shaped test document yields the spec's
concrete values. -/
theorem coords_at_pos_spec :
    (∀ (d : Doc), d.WF → ∀ pos, pos ≤ d.len →
      coords_at_pos d pos = some (coordsSpec d pos))
    ∧ coords_at_pos exHello 0 = some ⟨0, 0⟩
    ∧ coords_at_pos exHello 5 = some ⟨0, 5⟩
    ∧ coords_at_pos exHello 6 = some ⟨1, 0⟩
    ∧ coords_at_pos exCombining 2 = some ⟨0, 1⟩ :=
  ⟨fun d hwf pos h => by
      obtain ⟨body, last⟩ := d
      exact coords_refines_aux last body hwf pos h,
    by decide, by decide, by decide, by decide⟩

/-- Witness for claim C3 at a concrete document and index. -/
theorem coords_at_pos_spec_witness :
    exHello.WF ∧ 7 ≤ exHello.len
    ∧ coords_at_pos exHello 7 = some (coordsSpec exHello 7) :=
  ⟨by decide, by decide, coords_at_pos_spec.1 exHello (by decide) 7 (by decide)⟩

/-! ### The round trip at cluster boundaries -/

theorem round_trip_aux (last : List Cluster) (body : List (List Cluster × Term)) :
    Doc.WF ⟨body, last⟩ → ∀ i, i ≤ Doc.len ⟨body, last⟩ →
      IsBoundary ⟨body, last⟩ i →
      (coords_at_pos ⟨body, last⟩ i).bind
        (fun c => pos_at_coords ⟨body, last⟩ c false) = some i := by
  induction body with
  | nil =>
    intro hwf i hle hb
    have hb2 : snapPrevAux last i = i := by
      have h0 := hb
      unfold IsBoundary ensure_grapheme_boundary_prev at h0
      rw [clusters_nil] at h0
      exact h0
    obtain ⟨xs, ys, hsplit, hclen⟩ := boundary_elim last i hb2
    have hpos : ∀ c ∈ last, 0 < c.len := by
      intro c hc
      exact (hwf c (by rw [clusters_nil]; exact hc)).1
    rw [coords_at_pos_eq _ _ hle]
    have hrow : charToLineAux (Doc.lineList ⟨[], last⟩) i = 0 := rfl
    rw [hrow, lineStart_zero]
    have hcol : cwidth (sliceClusters (Doc.clusters ⟨[], last⟩) 0
        (ensure_grapheme_boundary_prev ⟨[], last⟩ i)) = cwidth xs := by
      unfold sliceClusters ensure_grapheme_boundary_prev
      rw [dropC_zero, Nat.sub_zero, clusters_nil, hb2, hsplit, ← hclen]
      rw [takeC_exact xs ys (by
        intro c hc
        exact hpos c (by rw [hsplit]; exact List.mem_append_left _ hc))]
    rw [hcol]
    show pos_at_coords ⟨[], last⟩ ⟨0, cwidth xs⟩ false = some i
    have h1 : Doc.lineToChar ⟨[], last⟩ 0 = some 0 := by
      rw [lineToChar_eq_of_le _ _ (by simp [Doc.lenLines]), lineStart_zero]
    have h2 : pos_line_end ⟨[], last⟩ 0 false = some (clen last) := by
      rw [pos_line_end_false_eq _ 0 (by simp [Doc.lenLines]), lineStart_nil_one]
    rw [pos_at_coords_eq _ _ _ _ _ _ h1 h2]
    have hslice : sliceClusters (Doc.clusters ⟨[], last⟩) 0 (clen last) = last := by
      unfold sliceClusters
      rw [dropC_zero, Nat.sub_zero, clusters_nil]
      exact takeC_all last hpos
    rw [hslice, hsplit]
    have hwid : ∀ c, ys.head? = some c → 0 < c.width := by
      intro c hc
      cases ys with
      | nil => simp at hc
      | cons y0 ys2 =>
        simp only [List.head?_cons, Option.some.injEq] at hc
        have hmem : y0 ∈ Doc.clusters ⟨[], last⟩ := by
          rw [clusters_nil, hsplit]
          exact List.mem_append_right _ (by simp)
        exact hc ▸ (hwf y0 hmem).2.1
    have hwalk := walk_boundary xs ys 0 0 hwid
    simp only [Nat.zero_add] at hwalk
    rw [hwalk]
    simp [hclen]
  | cons hd rest ih =>
    intro hwf i hle hb
    have h0 := hb
    unfold IsBoundary ensure_grapheme_boundary_prev at h0
    by_cases hlt : i < lineLen (hd.1, some hd.2)
    · obtain ⟨xs, ys, hsplit, hclen⟩ := boundary_elim _ i h0
      have hposall : ∀ c ∈ Doc.clusters ⟨hd :: rest, last⟩, 0 < c.len :=
        fun c hc => (hwf c hc).1
      have hsplit2 : (hd.1 ++ [hd.2.cluster]) ++ Doc.clusters ⟨rest, last⟩ = xs ++ ys := by
        rw [← clusters_cons, hsplit]
      have hL : clen (hd.1 ++ [hd.2.cluster]) = lineLen (hd.1, some hd.2) :=
        clen_line_clusters hd
      rcases List.append_eq_append_iff.mp hsplit2 with ⟨a, ha1, ha2⟩ | ⟨a, ha1, ha2⟩
      · -- xs = hdC ++ a: contradicts clen xs = i < lineLen
        exfalso
        have : clen xs = clen (hd.1 ++ [hd.2.cluster]) + clen a := by
          rw [ha1, clen_append]
        omega
      · -- hdC = xs ++ a
        have hane : a ≠ [] := by
          intro hnil
          rw [hnil, List.append_nil] at ha1
          rw [ha1] at hL
          omega
        obtain ⟨a0, a1, ha0⟩ : ∃ a0 a1, a = a0 :: a1 := by
          cases a with
          | nil => exact absurd rfl hane
          | cons a0 a1 => exact ⟨a0, a1, rfl⟩
        rw [coords_at_pos_eq _ _ hle]
        have hrow : charToLineAux (Doc.lineList ⟨hd :: rest, last⟩) i = 0 := by
          rw [lineList_cons]
          exact charToLineAux_within _ _ i hlt
        rw [hrow, lineStart_zero]
        have hcol : cwidth (sliceClusters (Doc.clusters ⟨hd :: rest, last⟩) 0
            (ensure_grapheme_boundary_prev ⟨hd :: rest, last⟩ i)) = cwidth xs := by
          unfold sliceClusters ensure_grapheme_boundary_prev
          rw [dropC_zero, Nat.sub_zero, h0, hsplit, ← hclen]
          rw [takeC_exact xs ys (by
            intro c hc
            exact hposall c (by rw [hsplit]; exact List.mem_append_left _ hc))]
        rw [hcol]
        show pos_at_coords ⟨hd :: rest, last⟩ ⟨0, cwidth xs⟩ false = some i
        have h1 : Doc.lineToChar ⟨hd :: rest, last⟩ 0 = some 0 := by
          rw [lineToChar_eq_of_le _ _ (by simp), lineStart_zero]
        have h2 : pos_line_end ⟨hd :: rest, last⟩ 0 false
            = some (lineLen (hd.1, some hd.2)) := by
          have he := pos_line_end_false_eq ⟨hd :: rest, last⟩ 0 (by simp)
          rw [he]
          have : Doc.lineStart ⟨hd :: rest, last⟩ (0 + 1)
              = lineLen (hd.1, some hd.2) + Doc.lineStart ⟨rest, last⟩ 0 :=
            lineStart_cons_succ hd rest last 0
          rw [this, lineStart_zero]
          exact congrArg some (Nat.add_zero _)
        rw [pos_at_coords_eq _ _ _ _ _ _ h1 h2]
        have hslice : sliceClusters (Doc.clusters ⟨hd :: rest, last⟩) 0
            (lineLen (hd.1, some hd.2)) = hd.1 ++ [hd.2.cluster] := by
          unfold sliceClusters
          rw [dropC_zero, Nat.sub_zero, clusters_cons, ← hL]
          exact takeC_exact _ _ (by
            intro c hc
            exact hposall c (by rw [clusters_cons]; exact List.mem_append_left _ hc))
        rw [hslice, ha1, ha0]
        have hwid : ∀ c, (a0 :: a1).head? = some c → 0 < c.width := by
          intro c hc
          simp only [List.head?_cons, Option.some.injEq] at hc
          have hmem : a0 ∈ hd.1 ++ [hd.2.cluster] := by
            rw [ha1, ha0]
            exact List.mem_append_right _ (by simp)
          refine hc ▸ (hwf a0 ?_).2.1
          rw [clusters_cons]
          exact List.mem_append_left _ hmem
        have hwalk := walk_boundary xs (a0 :: a1) 0 0 hwid
        simp only [Nat.zero_add] at hwalk
        rw [hwalk]
        simp [hclen]
    · obtain ⟨m, hm⟩ : ∃ m, i = lineLen (hd.1, some hd.2) + m :=
        ⟨i - lineLen (hd.1, some hd.2), by omega⟩
      subst hm
      have hm2 : m ≤ Doc.len ⟨rest, last⟩ := by
        rw [len_cons] at hle
        omega
      have hb2 : IsBoundary ⟨rest, last⟩ m := by
        unfold IsBoundary
        have hs := snap_shift hd rest last m
        unfold ensure_grapheme_boundary_prev at hs ⊢
        rw [hs] at h0
        omega
      have hIH := ih (WF_tail hd rest last hwf) m hm2 hb2
      obtain ⟨c, hc⟩ : ∃ c, coords_at_pos ⟨rest, last⟩ m = some c := by
        rw [coords_at_pos_eq _ _ hm2]
        exact ⟨_, rfl⟩
      rw [hc] at hIH
      have hIH2 : pos_at_coords ⟨rest, last⟩ c false = some m := hIH
      rw [coords_shift hd rest last m hwf hm2, hc]
      show pos_at_coords ⟨hd :: rest, last⟩ ⟨c.row + 1, c.col⟩ false
        = some (lineLen (hd.1, some hd.2) + m)
      exact pos_shift hd rest last c.row c.col false m hwf hIH2

/-- Claim C1: the round-trip law for the insertion cursor: for every
well-formed document and every in-range character index on a
grapheme-cluster boundary, feeding the coordinates computed by
`coords_at_pos` back through `pos_at_coords` in non-block mode recovers
exactly the original index; indices strictly inside a cluster are
excluded by the boundary hypothesis. -/
theorem round_trip_boundary (d : Doc) (hwf : d.WF) (i : Nat) (hle : i ≤ d.len)
    (hb : IsBoundary d i) :
    (coords_at_pos d i).bind (fun c => pos_at_coords d c false) = some i := by
  obtain ⟨body, last⟩ := d
  exact round_trip_aux last body hwf i hle hb

/-- Witness for claim C1 at a boundary inside the combining-cluster test
document: index four sits after the second two-character cluster and
round-trips through coordinates row zero, column two. -/
theorem round_trip_boundary_witness :
    exCombining.WF ∧ 4 ≤ exCombining.len ∧ IsBoundary exCombining 4
    ∧ (coords_at_pos exCombining 4).bind
        (fun c => pos_at_coords exCombining c false) = some 4 :=
  ⟨by decide, by decide, by decide,
    round_trip_boundary exCombining (by decide) 4 (by decide) (by decide)⟩

end HelixPosition
